import Mathlib

/-!
Verification of the fast-feed-parser SPSC ring buffer (`src/spsc_ringbuffer.h`),
its benchmark harness argument validation (`main`), and the statistics helper
`percentile` (`src/util.h`).

The queue is embedded machine-exactly: cursors are `size_t` values, i.e.
natural numbers kept below `W = 2^64`, and every arithmetic operation the C++
code performs on them (wrap-around subtraction, increment, bit-masking) is
written out with explicit `% W` / `&&&` arithmetic.  The slot array is a total
function `Nat → α` (uninitialized memory is an arbitrary such function).
-/

namespace FastFeedParser

/-- Number of values of the C++ `size_t` type: 2^64. -/
def W : Nat := 18446744073709551616

theorem W_eq : W = 2 ^ 64 := by norm_num [W]

/-- The `SPSCQueue<T>` class state: slot array, `capacity`, `mask`,
consumer cursor `head`, producer cursor `tail` (all `size_t`). -/
structure SPSCQueue (α : Type) where
  buffer : Nat → α
  capacity : Nat
  mask : Nat
  head : Nat
  tail : Nat

/-- The queue state produced by the constructor body (lines 79–86 of
`spsc_ringbuffer.h`): `capacity = capacity_pow2`, `mask = capacity - 1`
(computed in `size_t`, so `0 - 1 = 2^64 - 1`), both cursors zero, and the
freshly allocated (uninitialized) buffer `buf`. -/
def init (c : Nat) (buf : Nat → α) : SPSCQueue α :=
  { buffer := buf, capacity := c, mask := (c + (W - 1)) % W, head := 0, tail := 0 }

/-- The constructor including its power-of-two check
`assert((capacity_pow2 & (capacity_pow2 - 1)) == 0)`: construction fails
(returns `none`) exactly when the asserted condition is false. -/
def SPSCQueue.new (c : Nat) (buf : Nat → α) : Option (SPSCQueue α) :=
  if c &&& ((c + (W - 1)) % W) = 0 then some (init c buf) else none

/-- `bool try_push(const T&)` (lines 117–126): read `tail`, compute
`nt = t + 1`, fail if `nt - head > capacity` (all in `size_t` arithmetic),
otherwise write the item to `buffer[t & mask]` and store `nt` into `tail`.
Returns the C++ return value paired with the post-state. -/
def try_push (q : SPSCQueue α) (item : α) : Bool × SPSCQueue α :=
  let t := q.tail
  let nt := (t + 1) % W
  if (nt + (W - q.head)) % W > q.capacity then
    (false, q)
  else
    (true, { q with
              buffer := fun j => if j = (t &&& q.mask) then item else q.buffer j,
              tail := nt })

/-- `bool try_pop(T &out)` (lines 143–151): read `head`, fail if it equals
`tail`, otherwise copy `buffer[h & mask]` into `out` and store `h + 1` into
`head`.  Returns the C++ return value, the post-state, and the final value of
the by-reference `out` argument (unchanged on failure). -/
def try_pop (q : SPSCQueue α) (out : α) : Bool × SPSCQueue α × α :=
  let h := q.head
  if h = q.tail then
    (false, q, out)
  else
    (true, { q with head := (h + 1) % W }, q.buffer (h &&& q.mask))

/-- `size_t approx_size()` (lines 162–164): the `size_t` difference of the
two cursors, both loads taken from the same state. -/
def approx_size (q : SPSCQueue α) : Nat :=
  (q.tail + (W - q.head)) % W

/-- `approx_size` when its two loads are torn apart by concurrency: the load
of `tail` observed an earlier state (value `t0`), the load of `head` observes
the current state `q`. -/
def approx_size_torn (t0 : Nat) (q : SPSCQueue α) : Nat :=
  (t0 + (W - q.head)) % W

/-- A single queue operation issued by the producer (`push`) or the
consumer (`pop`). -/
inductive Op (α : Type) where
  | push (item : α)
  | pop

/-- Outcome of running a sequence of operations: final state, the list of
successfully enqueued items in order, and the list of successfully dequeued
items in order. -/
structure RunOut (α : Type) where
  q : SPSCQueue α
  enq : List α
  deq : List α

/-- Run a list of operations against a queue state, recording which pushes
and pops succeeded.  An SPSC execution is any interleaving of the producer's
pushes and the consumer's pops, which (for the sequentially consistent shallow
model) is exactly such a list. -/
def run [Inhabited α] (q : SPSCQueue α) : List (Op α) → RunOut α
  | [] => ⟨q, [], []⟩
  | Op.push x :: ops =>
      let r := try_push q x
      let rest := run r.2 ops
      ⟨rest.q, (if r.1 then [x] else []) ++ rest.enq, rest.deq⟩
  | Op.pop :: ops =>
      let r := try_pop q default
      let rest := run r.2.1 ops
      ⟨rest.q, rest.enq, (if r.1 then [r.2.2] else []) ++ rest.deq⟩

/-- A state is reachable at capacity `c` (with initial buffer contents `buf`)
when some operation sequence leads to it from the constructed queue. -/
def Reachable [Inhabited α] (c : Nat) (buf : Nat → α) (q : SPSCQueue α) : Prop :=
  ∃ ops : List (Op α), (run (init c buf) ops).q = q

/-- A capacity the spec calls valid: a positive power of two representable in
`size_t`. -/
def ValidCap (c : Nat) : Prop :=
  ∃ k, k < 64 ∧ c = 2 ^ k

/-- The inductive invariant tying a queue state to the list `P` of items
currently pending (enqueued but not yet dequeued), in order. -/
structure INV (c : Nat) (q : SPSCQueue α) (P : List α) : Prop where
  cap : q.capacity = c
  msk : q.mask = c - 1
  hlt : q.head < W
  tlt : q.tail < W
  len : P.length = approx_size q
  bnd : P.length ≤ c
  slots : ∀ i, i < P.length →
    P[i]? = some (q.buffer (((q.head + i) % W) &&& q.mask))

/-- Configuration assembled by `main` (`spsc_ringbuffer.h` lines 290–320):
message rate, duration in seconds, and buffer size in elements. -/
structure Config where
  msgs : Nat
  secs : Int
  bufSize : Nat
deriving DecidableEq

/-- Validation of the first positional argument (lines 294–301): default
500000; a supplied value is rejected with exit code 1 when it is zero or
exceeds 10,000,000. -/
def check_msgs : Option Nat → Except Nat Nat
  | none => .ok 500000
  | some v => if v = 0 ∨ v > 10000000 then .error 1 else .ok v

/-- Validation of the second positional argument (lines 303–310): default 5;
a supplied value is rejected with exit code 1 when it is non-positive or
exceeds 3600.  `std::stoi` yields a signed int, so the value is an integer. -/
def check_secs : Option Int → Except Nat Int
  | none => .ok 5
  | some v => if v ≤ 0 ∨ v > 3600 then .error 1 else .ok v

/-- Validation of the third positional argument (lines 312–320): default
buffer size `1 << 16`; a supplied power is rejected with exit code 1 when it
is below 10 or above 24, and otherwise the buffer size is `1 << pow2`. -/
def check_pow2 : Option Nat → Except Nat Nat
  | none => .ok (2 ^ 16)
  | some v => if v < 10 ∨ v > 24 then .error 1 else .ok (2 ^ v)

/-- The harness's argument validation, performed in order before the queue is
constructed: the first failing check aborts with its exit code. -/
def validate_args (m : Option Nat) (s : Option Int) (b : Option Nat) :
    Except Nat Config := do
  let mv ← check_msgs m
  let sv ← check_secs s
  let bv ← check_pow2 b
  pure ⟨mv, sv, bv⟩

/-- The process exit code as a function of the (parsed) positional arguments:
the validation failure code when some argument is out of range, and 0 for the
normal-completion path (`return 0` at line 383). -/
def main_exit_code (m : Option Nat) (s : Option Int) (b : Option Nat) : Nat :=
  match validate_args m s b with
  | .error code => code
  | .ok _ => 0

/-- `percentile` from `src/util.h` (lines 51–71), with C++ `double`
arithmetic idealized as exact rational arithmetic: empty input returns 0;
otherwise sort a copy, set `idx = p * (size - 1)`, `lo = floor(idx)`,
`hi = ceil(idx)`, and return `v[lo]` when `lo = hi`, else the linear
interpolation `v[lo] * (1 - frac) + v[hi] * frac` with `frac = idx - lo`. -/
def percentile (v : List Nat) (p : ℚ) : ℚ :=
  if v = [] then 0
  else
    let s := v.mergeSort
    let idx : ℚ := p * ((v.length - 1 : Nat) : ℚ)
    let lo : Nat := (⌊idx⌋).toNat
    let hi : Nat := (⌈idx⌉).toNat
    if lo = hi then ((s.getD lo 0 : Nat) : ℚ)
    else ((s.getD lo 0 : Nat) : ℚ) * (1 - (idx - (lo : ℚ))) +
      ((s.getD hi 0 : Nat) : ℚ) * (idx - (lo : ℚ))

theorem ValidCap.pos {c : Nat} (h : ValidCap c) : 0 < c := by
  obtain ⟨k, _, rfl⟩ := h
  exact Nat.pos_pow_of_pos k (by norm_num)

theorem ValidCap.two_mul_le {c : Nat} (h : ValidCap c) : 2 * c ≤ W := by
  obtain ⟨k, hk, rfl⟩ := h
  rw [W_eq]
  calc 2 * 2 ^ k = 2 ^ (k + 1) := by ring
  _ ≤ 2 ^ 64 := Nat.pow_le_pow_right (by norm_num) (by omega)

theorem ValidCap.lt_W {c : Nat} (h : ValidCap c) : c < W := by
  have h1 := h.pos
  have h2 := h.two_mul_le
  omega

theorem ValidCap.dvd_W {c : Nat} (h : ValidCap c) : c ∣ W := by
  obtain ⟨k, hk, rfl⟩ := h
  rw [W_eq]
  exact pow_dvd_pow 2 (by omega)

/-- In `size_t` arithmetic, `capacity - 1` really is `capacity - 1` for a
valid capacity. -/
theorem mask_val {c : Nat} (h : ValidCap c) : (c + (W - 1)) % W = c - 1 := by
  have h1 := h.pos
  have h2 := h.lt_W
  unfold W at *
  omega

/-- Masking with `capacity - 1` is reduction modulo the capacity. -/
theorem land_mask {c : Nat} (h : ValidCap c) (x : Nat) : x &&& (c - 1) = x % c := by
  obtain ⟨k, _, rfl⟩ := h
  exact Nat.and_pow_two_sub_one_eq_mod x k

theorem mod_W_mod {c : Nat} (h : ValidCap c) (x : Nat) : x % W % c = x % c :=
  Nat.mod_mod_of_dvd x h.dvd_W

/-- If the occupancy is strictly below the capacity, the full-test in
`try_push` does not fire, and the occupancy after the push is one larger. -/
theorem push_guard_room {h t c : Nat} (hh : h < W) (ht : t < W) (hc : 2 * c ≤ W)
    (hd : (t + (W - h)) % W < c) :
    ¬ ((t + 1) % W + (W - h)) % W > c ∧
      ((t + 1) % W + (W - h)) % W = (t + (W - h)) % W + 1 := by
  unfold W at *
  omega

/-- If the occupancy equals the capacity, the full-test in `try_push` fires. -/
theorem push_guard_full {h t c : Nat} (hh : h < W) (ht : t < W) (hc : 2 * c ≤ W)
    (hd : (t + (W - h)) % W = c) :
    ((t + 1) % W + (W - h)) % W > c := by
  unfold W at *
  omega

/-- With distinct cursors the occupancy is positive, and advancing the
consumer cursor decreases it by one. -/
theorem pop_guard {h t : Nat} (hh : h < W) (ht : t < W) (hne : h ≠ t) :
    0 < (t + (W - h)) % W ∧
      (t + (W - (h + 1) % W)) % W = (t + (W - h)) % W - 1 := by
  unfold W at *
  omega

/-- Slot index arithmetic: advancing the consumer cursor shifts slot `i + 1`
down to slot `i`. -/
theorem head_shift {h : Nat} (i : Nat) (hh : h < W) :
    ((h + 1) % W + i) % W = (h + (i + 1)) % W := by
  unfold W at *
  omega

/-- The producer cursor sits `occupancy` slots past the consumer cursor,
modulo the capacity. -/
theorem tail_mod_cap {c h t : Nat} (hvc : ValidCap c) (hh : h < W) (ht : t < W) :
    (h + (t + (W - h)) % W) % c = t % c := by
  have h1 : (h + (t + (W - h)) % W) % W = t % W := by
    unfold W at *
    omega
  have h2 : (h + (t + (W - h)) % W) % W % c = t % W % c := by rw [h1]
  rwa [mod_W_mod hvc, mod_W_mod hvc] at h2

/-- Distinct offsets below the capacity land in distinct slots. -/
theorem add_mod_cap_inj {c h i j : Nat} (hi : i < c) (hj : j < c) (hij : i ≠ j) :
    (h + i) % c ≠ (h + j) % c := by
  intro he
  have hmod : i ≡ j [MOD c] := Nat.ModEq.add_left_cancel' h he
  rw [Nat.ModEq, Nat.mod_eq_of_lt hi, Nat.mod_eq_of_lt hj] at hmod
  exact hij hmod

theorem init_INV {c : Nat} (hvc : ValidCap c) (buf : Nat → α) :
    INV c (init c buf) [] where
  cap := rfl
  msk := mask_val hvc
  hlt := by norm_num [init, W]
  tlt := by norm_num [init, W]
  len := by simp [approx_size, init]
  bnd := Nat.zero_le _
  slots := by intro i hi; simp at hi

/-- On a full queue (occupancy = capacity), `try_push` reports failure and
leaves the state untouched. -/
theorem try_push_full {c : Nat} {q : SPSCQueue α} {P : List α}
    (hvc : ValidCap c) (hinv : INV c q P) (x : α)
    (hfull : approx_size q = c) :
    try_push q x = (false, q) := by
  have hg := push_guard_full hinv.hlt hinv.tlt hvc.two_mul_le hfull
  simp only [try_push]
  rw [hinv.cap, if_pos hg]

/-- On a non-full queue, `try_push` succeeds: it writes the item into slot
`tail &&& mask`, advances `tail` by one, and the pending-list invariant
extends by the pushed item. -/
theorem try_push_ok {c : Nat} {q : SPSCQueue α} {P : List α}
    (hvc : ValidCap c) (hinv : INV c q P) (x : α)
    (hroom : approx_size q < c) :
    try_push q x =
      (true, { q with
                buffer := fun j => if j = (q.tail &&& q.mask) then x else q.buffer j,
                tail := (q.tail + 1) % W }) ∧
      INV c
        { q with
           buffer := fun j => if j = (q.tail &&& q.mask) then x else q.buffer j,
           tail := (q.tail + 1) % W } (P ++ [x]) := by
  obtain ⟨hng, hdist⟩ := push_guard_room hinv.hlt hinv.tlt hvc.two_mul_le hroom
  have hidx : ∀ y : Nat, ((y : Nat) % W) &&& q.mask = y % c := by
    intro y
    rw [hinv.msk, land_mask hvc, mod_W_mod hvc]
  have htail : q.tail &&& q.mask = q.tail % c := by
    rw [hinv.msk, land_mask hvc]
  have htcong : (q.head + P.length) % c = q.tail % c := by
    rw [hinv.len]
    exact tail_mod_cap hvc hinv.hlt hinv.tlt
  constructor
  · simp only [try_push]
    rw [hinv.cap, if_neg hng]
  · refine ⟨hinv.cap, hinv.msk, hinv.hlt, Nat.mod_lt _ (by norm_num [W]), ?_, ?_, ?_⟩
    · simp [approx_size, hdist, hinv.len]
    · have := hinv.len
      simp only [List.length_append, List.length_singleton]
      omega
    · intro i hi
      simp only [List.length_append, List.length_singleton] at hi
      have hPd : P.length < c := by rw [hinv.len]; exact hroom
      rcases Nat.lt_or_ge i P.length with hil | hie
      · rw [List.getElem?_append_left hil, hinv.slots i hil]
        have hne2 : ((q.head + i) % W) &&& q.mask ≠ q.tail &&& q.mask := by
          rw [hidx, htail, ← htcong]
          exact add_mod_cap_inj (lt_trans hil hPd) hPd (Nat.ne_of_lt hil)
        simp only [if_neg hne2]
      · have hieq : i = P.length := by omega
        subst hieq
        rw [List.getElem?_concat_length]
        have heq2 : ((q.head + P.length) % W) &&& q.mask = q.tail &&& q.mask := by
          rw [hidx, htail, htcong]
        simp only [if_pos heq2]

/-- On a queue with equal cursors, `try_pop` reports failure, leaves the
state untouched, and leaves the out-parameter unchanged. -/
theorem try_pop_empty {q : SPSCQueue α} (out : α) (he : q.head = q.tail) :
    try_pop q out = (false, q, out) := by
  simp [try_pop, he]

/-- On a queue with distinct cursors, `try_pop` succeeds: it returns the
oldest pending item, advances `head` by one, and the pending-list invariant
drops its first element. -/
theorem try_pop_ok {c : Nat} {q : SPSCQueue α} {P : List α}
    (hvc : ValidCap c) (hinv : INV c q P) (out : α)
    (hne : q.head ≠ q.tail) :
    ∃ y ys, P = y :: ys ∧
      try_pop q out = (true, { q with head := (q.head + 1) % W }, y) ∧
      INV c { q with head := (q.head + 1) % W } ys := by
  obtain ⟨hpos, hdist⟩ := pop_guard hinv.hlt hinv.tlt hne
  have hlenpos : 0 < P.length := by rw [hinv.len]; exact hpos
  obtain ⟨y, ys, rfl⟩ : ∃ y ys, P = y :: ys := by
    cases P with
    | nil => simp at hlenpos
    | cons a as => exact ⟨a, as, rfl⟩
  have hslot0 := hinv.slots 0 hlenpos
  have hhead0 : (q.head + 0) % W = q.head := by
    rw [Nat.add_zero]
    exact Nat.mod_eq_of_lt hinv.hlt
  rw [hhead0] at hslot0
  simp only [List.getElem?_cons_zero, Option.some.injEq] at hslot0
  refine ⟨y, ys, rfl, ?_, ?_⟩
  · simp only [try_pop]
    rw [if_neg hne, hslot0]
  · refine ⟨hinv.cap, hinv.msk, Nat.mod_lt _ (by norm_num [W]), hinv.tlt, ?_, ?_, ?_⟩
    · simp only [approx_size, hdist]
      have := hinv.len
      simp only [List.length_cons] at this
      simp only [approx_size] at this
      omega
    · have := hinv.bnd
      simp only [List.length_cons] at this
      omega
    · intro i hi
      have hs := hinv.slots (i + 1) (by simpa using Nat.succ_lt_succ hi)
      simp only [List.getElem?_cons_succ] at hs
      rw [hs]
      simp only
      rw [head_shift i hinv.hlt]

/-- Running any operation sequence from an invariant-satisfying state
preserves the invariant, and the items enqueued during the run extend the
pending items exactly by what the run dequeues plus a new pending list. -/
theorem run_INV [Inhabited α] {c : Nat} (hvc : ValidCap c) :
    ∀ (ops : List (Op α)) (q : SPSCQueue α) (P : List α), INV c q P →
      ∃ P', INV c (run q ops).q P' ∧
        P ++ (run q ops).enq = (run q ops).deq ++ P'
  | [], q, P, hinv => ⟨P, hinv, by simp [run]⟩
  | Op.push x :: ops, q, P, hinv => by
      rcases Nat.lt_or_ge (approx_size q) c with hroom | hfull
      · obtain ⟨hpush, hinv'⟩ := try_push_ok hvc hinv x hroom
        obtain ⟨P', h1, h2⟩ := run_INV hvc ops _ _ hinv'
        refine ⟨P', ?_, ?_⟩
        · simpa [run, hpush] using h1
        · simp only [run, hpush]
          simpa [List.append_assoc] using h2
      · have hfe : approx_size q = c := by
          have hb := hinv.bnd
          have hl := hinv.len
          omega
        have hpush := try_push_full hvc hinv x hfe
        obtain ⟨P', h1, h2⟩ := run_INV hvc ops q P hinv
        refine ⟨P', ?_, ?_⟩
        · simpa [run, hpush] using h1
        · simpa [run, hpush] using h2
  | Op.pop :: ops, q, P, hinv => by
      by_cases he : q.head = q.tail
      · have hpop := try_pop_empty (default : α) he
        obtain ⟨P', h1, h2⟩ := run_INV hvc ops q P hinv
        refine ⟨P', ?_, ?_⟩
        · simpa [run, hpop] using h1
        · simpa [run, hpop] using h2
      · obtain ⟨y, ys, hP, hpop, hinv'⟩ := try_pop_ok hvc hinv default he
        obtain ⟨P', h1, h2⟩ := run_INV hvc ops _ _ hinv'
        refine ⟨P', ?_, ?_⟩
        · simpa [run, hpop] using h1
        · simp only [run, hpop]
          subst hP
          simpa using h2

/-- Every reachable state of a validly constructed queue satisfies the
invariant for some pending list. -/
theorem reach_INV [Inhabited α] {c : Nat} {buf : Nat → α} {q : SPSCQueue α}
    (hvc : ValidCap c) (hq : Reachable c buf q) : ∃ P, INV c q P := by
  obtain ⟨ops, rfl⟩ := hq
  obtain ⟨P, h1, _⟩ := run_INV hvc ops (init c buf) [] (init_INV hvc buf)
  exact ⟨P, h1⟩

/-- Claim C1: on every reachable state of a validly constructed queue,
`try_push` returns false leaving the state untouched exactly when
`write_cursor - read_cursor == capacity`; otherwise it copies the item into
slot `write_cursor & (capacity - 1)`, increments `write_cursor` by one, and
returns true.  With capacity 4, four enqueues on a fresh queue succeed,
a fifth fails, and after one dequeue the fifth enqueue succeeds. -/
theorem try_push_spec {α : Type} [Inhabited α] (c : Nat) (buf : Nat → α)
    (q : SPSCQueue α) (x : α) (hvc : ValidCap c) (hq : Reachable c buf q) :
    (((try_push q x).1 = false ↔ approx_size q = c) ∧
      ((try_push q x).1 = false → (try_push q x).2 = q) ∧
      (approx_size q ≠ c →
        q.mask = c - 1 ∧
        try_push q x =
          (true, { q with
                    buffer := fun j => if j = (q.tail &&& q.mask) then x else q.buffer j,
                    tail := (q.tail + 1) % W }))) ∧
    ((run (init 4 (fun _ => (0:Nat))) [Op.push 1, Op.push 2, Op.push 3, Op.push 4]).enq
        = [1, 2, 3, 4] ∧
      (try_push (run (init 4 (fun _ => (0:Nat)))
        [Op.push 1, Op.push 2, Op.push 3, Op.push 4]).q 5).1 = false ∧
      (try_push (try_pop (run (init 4 (fun _ => (0:Nat)))
        [Op.push 1, Op.push 2, Op.push 3, Op.push 4]).q 0).2.1 5).1 = true) := by
  obtain ⟨P, hinv⟩ := reach_INV hvc hq
  have hle : approx_size q ≤ c := by
    have h1 := hinv.len
    have h2 := hinv.bnd
    omega
  refine ⟨⟨?_, ?_, ?_⟩, by decide, by decide, by decide⟩
  · constructor
    · intro hfalse
      by_contra hne
      have hroom : approx_size q < c := lt_of_le_of_ne hle hne
      have := (try_push_ok hvc hinv x hroom).1
      rw [this] at hfalse
      simp at hfalse
    · intro hfe
      rw [try_push_full hvc hinv x hfe]
  · intro hfalse
    have hfe : approx_size q = c := by
      by_contra hne
      have hroom : approx_size q < c := lt_of_le_of_ne hle hne
      have := (try_push_ok hvc hinv x hroom).1
      rw [this] at hfalse
      simp at hfalse
    rw [try_push_full hvc hinv x hfe]
  · intro hne
    have hroom : approx_size q < c := lt_of_le_of_ne hle hne
    exact ⟨hinv.msk, (try_push_ok hvc hinv x hroom).1⟩

theorem try_push_spec_witness :
    ValidCap 4 ∧ (try_push (init 4 (fun _ => (0:Nat))) 7).1 = true := by
  have hvc : ValidCap 4 := ⟨2, by norm_num⟩
  have h := try_push_spec 4 (fun _ => (0:Nat)) (init 4 (fun _ => (0:Nat))) 7 hvc ⟨[], rfl⟩
  refine ⟨hvc, ?_⟩
  cases hb : (try_push (init 4 (fun _ => (0:Nat))) 7).1 with
  | false => exact absurd (h.1.1.mp hb) (by decide)
  | true => rfl

/-- Claim C2: `try_pop` returns false exactly when the cursors are equal
(leaving state and out-parameter untouched), and otherwise copies slot
`read_cursor & (capacity - 1)` into the out-parameter and increments
`read_cursor` by one; moreover on a queue on which no push has ever
succeeded, no pop ever succeeds. -/
theorem try_pop_spec {α : Type} [Inhabited α] (c : Nat) (buf : Nat → α)
    (q : SPSCQueue α) (out : α) (hvc : ValidCap c) (hq : Reachable c buf q) :
    ((try_pop q out).1 = false ↔ q.head = q.tail) ∧
    (q.head = q.tail → try_pop q out = (false, q, out)) ∧
    (q.head ≠ q.tail →
      try_pop q out =
        (true, { q with head := (q.head + 1) % W }, q.buffer (q.head &&& (c - 1)))) ∧
    (∀ ops : List (Op α),
      (run (init c buf) ops).enq = [] → (run (init c buf) ops).deq = []) := by
  obtain ⟨P, hinv⟩ := reach_INV hvc hq
  refine ⟨?_, fun he => try_pop_empty out he, ?_, ?_⟩
  · constructor
    · intro hfalse
      by_contra hne
      simp [try_pop, if_neg hne] at hfalse
    · intro he
      rw [try_pop_empty out he]
  · intro hne
    rw [← hinv.msk]
    simp [try_pop, if_neg hne]
  · intro ops henq
    obtain ⟨P', _, h2⟩ := run_INV hvc ops (init c buf) [] (init_INV hvc buf)
    rw [henq] at h2
    simp only [List.nil_append] at h2
    exact List.append_eq_nil.mp h2.symm |>.1

theorem try_pop_spec_witness :
    (try_pop (init 2 (fun _ => (0:Nat))) 9).1 = false := by
  have h := try_pop_spec 2 (fun _ => (0:Nat)) (init 2 (fun _ => (0:Nat))) 9
    ⟨1, by norm_num⟩ ⟨[], rfl⟩
  exact h.1.mpr rfl

/-- Claim C3: on every reachable state of a validly constructed queue,
`0 ≤ write_cursor - read_cursor ≤ capacity`; both cursors are `size_t`
(64-bit) values, and each successful operation advances exactly its owner's
cursor by one (modulo 2^64) while failed operations change nothing. -/
theorem cursor_invariant {α : Type} [Inhabited α] (c : Nat) (buf : Nat → α)
    (q : SPSCQueue α) (hvc : ValidCap c) (hq : Reachable c buf q) :
    (0 ≤ approx_size q ∧ approx_size q ≤ c) ∧
    (q.head < W ∧ q.tail < W) ∧
    (∀ x : α,
      ((try_push q x).1 = true →
        (try_push q x).2.tail = (q.tail + 1) % W ∧ (try_push q x).2.head = q.head) ∧
      ((try_push q x).1 = false → (try_push q x).2 = q)) ∧
    (∀ out : α,
      ((try_pop q out).1 = true →
        (try_pop q out).2.1.head = (q.head + 1) % W ∧ (try_pop q out).2.1.tail = q.tail) ∧
      ((try_pop q out).1 = false → (try_pop q out).2.1 = q)) := by
  obtain ⟨P, hinv⟩ := reach_INV hvc hq
  have hle : approx_size q ≤ c := by
    have h1 := hinv.len
    have h2 := hinv.bnd
    omega
  refine ⟨⟨Nat.zero_le _, hle⟩, ⟨hinv.hlt, hinv.tlt⟩, ?_, ?_⟩
  · intro x
    by_cases hcond : ((q.tail + 1) % W + (W - q.head)) % W > q.capacity
    · have he : try_push q x = (false, q) := by
        simp only [try_push]
        rw [if_pos hcond]
      rw [he]
      exact ⟨fun h => by simp at h, fun _ => rfl⟩
    · have he : try_push q x =
          (true, { q with
                    buffer := fun j => if j = (q.tail &&& q.mask) then x else q.buffer j,
                    tail := (q.tail + 1) % W }) := by
        simp only [try_push]
        rw [if_neg hcond]
      rw [he]
      exact ⟨fun _ => ⟨rfl, rfl⟩, fun h => by simp at h⟩
  · intro out
    by_cases hcond : q.head = q.tail
    · rw [try_pop_empty out hcond]
      exact ⟨fun h => by simp at h, fun _ => rfl⟩
    · have he : try_pop q out =
          (true, { q with head := (q.head + 1) % W }, q.buffer (q.head &&& q.mask)) := by
        simp only [try_pop]
        rw [if_neg hcond]
      rw [he]
      exact ⟨fun _ => ⟨rfl, rfl⟩, fun h => by simp at h⟩

theorem cursor_invariant_witness :
    approx_size (init 4 (fun _ => (0:Nat))) ≤ 4 :=
  (cursor_invariant 4 (fun _ => (0:Nat)) (init 4 (fun _ => (0:Nat)))
    ⟨2, by norm_num⟩ ⟨[], rfl⟩).1.2

/-- Claim C4: FIFO order — in every SPSC execution from a validly
constructed queue, the successfully dequeued items form a prefix of the
successfully enqueued items: the k-th successful dequeue returns the k-th
successfully enqueued item, with no duplicates and no gaps. -/
theorem fifo_order {α : Type} [Inhabited α] (c : Nat) (buf : Nat → α)
    (ops : List (Op α)) (hvc : ValidCap c) :
    ∃ P, (run (init c buf) ops).enq = (run (init c buf) ops).deq ++ P ∧
      ∀ k, k < (run (init c buf) ops).deq.length →
        (run (init c buf) ops).deq[k]? = (run (init c buf) ops).enq[k]? := by
  obtain ⟨P, _, h2⟩ := run_INV hvc ops (init c buf) [] (init_INV hvc buf)
  simp only [List.nil_append] at h2
  refine ⟨P, h2, ?_⟩
  intro k hk
  rw [h2, List.getElem?_append_left hk]

theorem fifo_order_witness :
    ∃ P, (run (init 4 (fun _ => (0:Nat))) [Op.push 1, Op.pop, Op.push 2]).enq =
        (run (init 4 (fun _ => (0:Nat))) [Op.push 1, Op.pop, Op.push 2]).deq ++ P ∧
      ∀ k, k < (run (init 4 (fun _ => (0:Nat))) [Op.push 1, Op.pop, Op.push 2]).deq.length →
        (run (init 4 (fun _ => (0:Nat))) [Op.push 1, Op.pop, Op.push 2]).deq[k]? =
          (run (init 4 (fun _ => (0:Nat))) [Op.push 1, Op.pop, Op.push 2]).enq[k]? :=
  fifo_order 4 (fun _ => (0:Nat)) [Op.push 1, Op.pop, Op.push 2] ⟨2, by norm_num⟩

/-- Claim C7: no data loss under room — on any reachable state of a validly
constructed queue, if `approx_size` (called with no concurrent activity, i.e.
single-threaded) is below the capacity, the immediately following `try_push`
succeeds. -/
theorem push_succeeds_when_room {α : Type} [Inhabited α] (c : Nat)
    (buf : Nat → α) (q : SPSCQueue α) (x : α) (hvc : ValidCap c)
    (hq : Reachable c buf q) (hroom : approx_size q < c) :
    (try_push q x).1 = true := by
  obtain ⟨P, hinv⟩ := reach_INV hvc hq
  rw [(try_push_ok hvc hinv x hroom).1]

theorem push_succeeds_when_room_witness :
    approx_size (init 4 (fun _ => (0:Nat))) < 4 ∧
      (try_push (init 4 (fun _ => (0:Nat))) 3).1 = true :=
  ⟨by decide, push_succeeds_when_room 4 (fun _ => (0:Nat))
    (init 4 (fun _ => (0:Nat))) 3 ⟨2, by norm_num⟩ ⟨[], rfl⟩ (by decide)⟩

/-- Claim C9: when `try_pop` returns false, the out-parameter is returned
unmodified and the queue state (all fields, including the buffer) is
unchanged, for every state and every initial out value. -/
theorem try_pop_frame {α : Type} (q : SPSCQueue α) (out : α)
    (h : (try_pop q out).1 = false) :
    (try_pop q out).2.1 = q ∧ (try_pop q out).2.2 = out := by
  by_cases he : q.head = q.tail
  · rw [try_pop_empty out he]
    exact ⟨rfl, rfl⟩
  · simp [try_pop, if_neg he] at h

theorem try_pop_frame_witness :
    (try_pop (init 1 (fun _ => (0:Nat))) 5).2.1 = init 1 (fun _ => (0:Nat)) ∧
      (try_pop (init 1 (fun _ => (0:Nat))) 5).2.2 = 5 :=
  try_pop_frame (init 1 (fun _ => (0:Nat))) 5 (by decide)

/-- Claim C5, evaluated against the code: the constructor's power-of-two
check rejects capacities 3 and 100 and accepts 1, 2 and 1024 with both
cursors zero — but it also accepts capacity 0 (since `0 & (0 - 1) == 0` in
`size_t`), constructing a queue instead of failing, contrary to the spec and
to the constructor's own documentation. -/
theorem new_capacity_check :
    (SPSCQueue.new 0 (fun _ => (0:Nat))).isSome = true ∧
    SPSCQueue.new 3 (fun _ => (0:Nat)) = none ∧
    SPSCQueue.new 100 (fun _ => (0:Nat)) = none ∧
    ((SPSCQueue.new 1 (fun _ => (0:Nat))).map fun q => (q.head, q.tail)) = some (0, 0) ∧
    ((SPSCQueue.new 2 (fun _ => (0:Nat))).map fun q => (q.head, q.tail)) = some (0, 0) ∧
    ((SPSCQueue.new 1024 (fun _ => (0:Nat))).map fun q => (q.head, q.tail)) = some (0, 0) := by
  refine ⟨by decide, rfl, rfl, by decide, by decide, by decide⟩

/-- Claim C6, counterexample: a monitor whose `approx_size` call loads
`tail` (value 0) from the fresh capacity-1 queue, and loads `head` after an
interleaved successful push and pop have run, computes `0 - 1` in `size_t`,
i.e. `2^64 - 1`, which is outside `[0, capacity]`. -/
theorem approx_size_torn_out_of_range :
    ValidCap 1 ∧
    (run (init 1 (fun _ => (0:Nat))) [Op.push 7, Op.pop]).q.capacity = 1 ∧
    approx_size_torn (init 1 (fun _ => (0:Nat))).tail
        (run (init 1 (fun _ => (0:Nat))) [Op.push 7, Op.pop]).q = W - 1 ∧
    approx_size_torn (init 1 (fun _ => (0:Nat))).tail
        (run (init 1 (fun _ => (0:Nat))) [Op.push 7, Op.pop]).q >
      (run (init 1 (fun _ => (0:Nat))) [Op.push 7, Op.pop]).q.capacity := by
  exact ⟨⟨0, by norm_num⟩, by decide, by decide, by decide⟩

/-- Claim C6, amended: `approx_size` returns the 64-bit difference
`write_cursor - read_cursor` of its two loads, and whenever its two loads
observe the same reachable state (no producer/consumer step interleaved
between them), the returned value lies within `[0, capacity]`. -/
theorem approx_size_spec {α : Type} [Inhabited α] (c : Nat) (buf : Nat → α)
    (q : SPSCQueue α) (hvc : ValidCap c) (hq : Reachable c buf q) :
    approx_size q = (q.tail + (W - q.head)) % W ∧
    approx_size_torn q.tail q = approx_size q ∧
    0 ≤ approx_size q ∧ approx_size q ≤ c := by
  obtain ⟨P, hinv⟩ := reach_INV hvc hq
  have hle : approx_size q ≤ c := by
    have h1 := hinv.len
    have h2 := hinv.bnd
    omega
  exact ⟨rfl, rfl, Nat.zero_le _, hle⟩

theorem approx_size_spec_witness :
    approx_size (init 2 (fun _ => (0:Nat))) ≤ 2 :=
  (approx_size_spec 2 (fun _ => (0:Nat)) (init 2 (fun _ => (0:Nat)))
    ⟨1, by norm_num⟩ ⟨[], rfl⟩).2.2.2

/-- The exit code is zero exactly when every supplied argument is in
range. -/
theorem main_exit_zero_iff (m : Option Nat) (s : Option Int) (b : Option Nat) :
    main_exit_code m s b = 0 ↔
      ((∀ v ∈ m, 1 ≤ v ∧ v ≤ 10000000) ∧
       (∀ v ∈ s, 1 ≤ v ∧ v ≤ 3600) ∧
       (∀ v ∈ b, 10 ≤ v ∧ v ≤ 24)) := by
  rcases m with _ | mv <;> rcases s with _ | sv <;> rcases b with _ | bv <;>
    simp only [main_exit_code, validate_args, check_msgs, check_secs, check_pow2,
      bind, Except.bind, pure, Except.pure] <;>
    (try split_ifs) <;> (try simp) <;> (try omega)

/-- The harness exits with code 0 or code 1, nothing else. -/
theorem main_exit_zero_or_one (m : Option Nat) (s : Option Int) (b : Option Nat) :
    main_exit_code m s b = 0 ∨ main_exit_code m s b = 1 := by
  rcases m with _ | mv <;> rcases s with _ | sv <;> rcases b with _ | bv <;>
    simp only [main_exit_code, validate_args, check_msgs, check_secs, check_pow2,
      bind, Except.bind, pure, Except.pure] <;>
    (try split_ifs) <;> (try simp)

/-- Claim C8: the harness accepts `msgs_per_sec` in [1, 10000000] (default
500000), `duration_seconds` in [1, 3600] (default 5) and
`buffer_size_power_of_two` in [10, 24] (default 16, i.e. 65536 elements),
all validated before the queue is constructed; the exit code is 1 exactly
when some supplied argument is out of range, and 0 otherwise. -/
theorem main_args_spec (m : Option Nat) (s : Option Int) (b : Option Nat) :
    (main_exit_code m s b = 1 ↔
      ¬ ((∀ v ∈ m, 1 ≤ v ∧ v ≤ 10000000) ∧
         (∀ v ∈ s, 1 ≤ v ∧ v ≤ 3600) ∧
         (∀ v ∈ b, 10 ≤ v ∧ v ≤ 24))) ∧
    (main_exit_code m s b = 0 ↔
      ((∀ v ∈ m, 1 ≤ v ∧ v ≤ 10000000) ∧
       (∀ v ∈ s, 1 ≤ v ∧ v ≤ 3600) ∧
       (∀ v ∈ b, 10 ≤ v ∧ v ≤ 24))) ∧
    validate_args none none none = .ok ⟨500000, 5, 65536⟩ ∧
    (∀ v : Nat, 10 ≤ v → v ≤ 24 →
      validate_args none none (some v) = .ok ⟨500000, 5, 2 ^ v⟩) := by
  have hz := main_exit_zero_iff m s b
  have h01 := main_exit_zero_or_one m s b
  refine ⟨?_, hz, rfl, ?_⟩
  · constructor
    · intro h1 hP
      have h0 := hz.mpr hP
      omega
    · intro hnP
      rcases h01 with h0 | h1
      · exact absurd (hz.mp h0) hnP
      · exact h1
  · intro v h10 h24
    simp only [validate_args, check_msgs, check_secs, check_pow2, bind, Except.bind]
    rw [if_neg (by omega)]
    rfl

theorem main_args_spec_witness :
    main_exit_code (some 0) none none = 1 ∧ main_exit_code none none none = 0 :=
  ⟨(main_args_spec (some 0) none none).1.mpr (by simp),
    (main_args_spec none none none).2.1.mpr (by simp)⟩

/-- `percentile` at `p = 0` reads slot 0 of the sorted copy. -/
theorem percentile_zero_eval (v : List Nat) (hne : v ≠ []) :
    percentile v 0 = (((v.mergeSort).getD 0 0 : Nat) : ℚ) := by
  simp [percentile, hne]

/-- `percentile` at `p = 1` reads the last slot of the sorted copy. -/
theorem percentile_one_eval (v : List Nat) (hne : v ≠ []) :
    percentile v 1 = (((v.mergeSort).getD (v.length - 1) 0 : Nat) : ℚ) := by
  simp [percentile, hne]

/-- In a `≤`-sorted list every element is at most the last one. -/
theorem pairwise_le_getLast :
    ∀ (l : List Nat), l.Pairwise (fun a b : Nat => a ≤ b) →
      ∀ (hne : l ≠ []) (x : Nat), x ∈ l → x ≤ l.getLast hne
  | [], _, hne, _, _ => absurd rfl hne
  | a :: t, hp, hne, x, hx => by
    rcases List.mem_cons.mp hx with rfl | hxt
    · cases t with
      | nil => simp
      | cons b u =>
        rw [List.getLast_cons (by simp)]
        exact (List.pairwise_cons.mp hp).1 _ (List.getLast_mem (by simp))
    · have htne : t ≠ [] := by
        intro h0
        rw [h0] at hxt
        simp at hxt
      rw [List.getLast_cons htne]
      exact pairwise_le_getLast t (List.pairwise_cons.mp hp).2 htne x hxt

/-- Reading index `length - 1` with a default returns the last element. -/
theorem getD_last {l : List Nat} (hne : l ≠ []) (d : Nat) :
    l.getD (l.length - 1) d = l.getLast hne := by
  have hlt : l.length - 1 < l.length := by
    cases l with
    | nil => exact absurd rfl hne
    | cons a t => simp
  rw [List.getD_eq_getElem?_getD, List.getElem?_eq_getElem hlt]
  rw [List.getLast_eq_getElem]
  rfl

/-- Claim C10: `percentile` returns 0 on every empty input; on non-empty
input (with `double` arithmetic idealized as exact rational arithmetic) it
evaluates the R-7 interpolation over the sorted copy of the unmodified input
— in particular `percentile v 0` is the minimum of `v` and `percentile v 1`
is the maximum of `v`. -/
theorem percentile_spec :
    (∀ p : ℚ, percentile [] p = 0) ∧
    (∀ v : List Nat, v ≠ [] →
      ((∃ x ∈ v, percentile v 0 = (x : ℚ)) ∧ (∀ x ∈ v, percentile v 0 ≤ (x : ℚ))) ∧
      ((∃ x ∈ v, percentile v 1 = (x : ℚ)) ∧ (∀ x ∈ v, (x : ℚ) ≤ percentile v 1))) := by
  constructor
  · intro p
    simp [percentile]
  · intro v hne
    have hperm : List.Perm (v.mergeSort) v := List.mergeSort_perm v _
    have hsne : (v.mergeSort : List Nat) ≠ [] := by
      intro h0
      rw [h0] at hperm
      exact hne hperm.symm.eq_nil
    have hsorted : List.Sorted (· ≤ ·) v.mergeSort := List.sorted_mergeSort' v
    obtain ⟨a, t, hst⟩ : ∃ a t, v.mergeSort = a :: t := by
      cases h : v.mergeSort with
      | nil => exact absurd h hsne
      | cons a t => exact ⟨a, t, rfl⟩
    refine ⟨⟨⟨a, ?_, ?_⟩, ?_⟩, ⟨⟨(v.mergeSort).getLast hsne, ?_, ?_⟩, ?_⟩⟩
    · exact hperm.mem_iff.mp (hst ▸ List.mem_cons_self a t)
    · rw [percentile_zero_eval v hne, hst]
      simp
    · intro x hx
      rw [percentile_zero_eval v hne, hst, List.getD_cons_zero]
      have hxs : x ∈ v.mergeSort := hperm.mem_iff.mpr hx
      rw [hst] at hxs
      have hsc := (List.sorted_cons.mp (hst ▸ hsorted))
      rcases List.mem_cons.mp hxs with rfl | hxt
      · exact le_refl _
      · exact Nat.cast_le.mpr (hsc.1 x hxt)
    · exact hperm.mem_iff.mp (List.getLast_mem hsne)
    · rw [percentile_one_eval v hne, ← hperm.length_eq, getD_last hsne]
    · intro x hx
      rw [percentile_one_eval v hne, ← hperm.length_eq, getD_last hsne]
      exact Nat.cast_le.mpr
        (pairwise_le_getLast _ hsorted hsne x (hperm.mem_iff.mpr hx))

theorem percentile_spec_witness :
    percentile [] (1 / 2) = 0 ∧
    ((∃ x ∈ [(3:Nat), 1, 2], percentile [3, 1, 2] 0 = (x : ℚ)) ∧
      (∀ x ∈ [(3:Nat), 1, 2], percentile [3, 1, 2] 0 ≤ (x : ℚ))) ∧
    ((∃ x ∈ [(3:Nat), 1, 2], percentile [3, 1, 2] 1 = (x : ℚ)) ∧
      (∀ x ∈ [(3:Nat), 1, 2], (x : ℚ) ≤ percentile [3, 1, 2] 1)) :=
  ⟨percentile_spec.1 (1 / 2),
    (percentile_spec.2 [3, 1, 2] (by simp)).1,
    (percentile_spec.2 [3, 1, 2] (by simp)).2⟩

end FastFeedParser
